import Mathlib

/-!
Verification of the cal-snap-compose free/busy slot-computation core

Shallow embedding of the slot engine of the repository: the free/busy
sweep (`generateAvailableSlots` in `src/services/googleCalendar.ts` and
`useCalendarSlots.generateSlotsForDuration` in
`src/pages/GoogleOAuthCallback.tsx`), the grouped merge
(`generateGroupedSlots`), the multi-strategy aggregation of
`fetchCalendarData` in `src/components/GoogleCalendarView.tsx`, and the
selection-state operations.

Timestamps are modelled as minutes since the local midnight of the day
under computation (all source arithmetic is in whole minutes:
`setHours`, `addMinutes`, millisecond comparisons of same-day `Date`s).
-/

namespace CalSnap

/-- A busy interval `{start: Date, end: Date}` (field `end` of the source
is `stop` here, `end` being a Lean keyword), in minutes since midnight. -/
structure Ivl where
  start : Nat
  stop : Nat
deriving DecidableEq

/-- The `TimeSlot` record of `src/services/googleCalendarOAuth.ts` as used
by the hook and the views: display strings, timestamps, the selection flag
and the identifier.  (`googleCalendar.ts`'s own `TimeSlot` lacks
`selected`/`id`; they are optional in the OAuth service's type, and the
embedding carries them with the defaults `true`/`""` until a caller
overwrites them, as `fetchCalendarData` does.) -/
structure TimeSlot where
  start : String
  stop : String
  startTime : Nat
  endTime : Nat
  selected : Bool
  id : String
deriving DecidableEq

instance : Inhabited TimeSlot :=
  ⟨{ start := "", stop := "", startTime := 0, endTime := 0, selected := true, id := "" }⟩

/-- Two-digit zero padding, as in the `mm`/`HH` tokens of date-fns. -/
def fmt2 (n : Nat) : String :=
  if n < 10 then "0" ++ toString n else toString n

/-- date-fns `format(t, 'HH:mm')` on a minutes-since-midnight timestamp. -/
def fmtHM (m : Nat) : String :=
  fmt2 (m / 60 % 24) ++ ":" ++ fmt2 (m % 60)

/-- date-fns `formatInTimeZone(t, tz, 'h:mm a')` on a minutes-since-midnight
timestamp (12-hour clock with AM/PM). -/
def fmtHMA (m : Nat) : String :=
  let h24 := m / 60 % 24
  let h12 := if h24 % 12 = 0 then 12 else h24 % 12
  toString h12 ++ ":" ++ fmt2 (m % 60) ++ (if h24 < 12 then " AM" else " PM")

/-!
The subdivision loop

`while (currentTime + duration <= periodEnd) { push [currentTime,
currentTime + duration); currentTime += duration }` — the slot-emission
loop of `generateAvailableSlots` (googleCalendar.ts:135-146 and 166-180)
and of the hook (GoogleOAuthCallback.tsx:316-329 and 345-360).

The loop advances by `duration` each iteration, so for positive duration
it runs at most `periodEnd - currentTime` times; the definitions take
that bound plus one as structural fuel (for `duration = 0` the source
loop would not terminate; the guard `0 < d` keeps that case empty).
-/

/-- The plain emission loop: slots `[cur, cur+d)` while `cur + d ≤ endT`. -/
def emitTimesGo : Nat → Nat → Nat → Nat → List (Nat × Nat)
  | 0, _, _, _ => []
  | fuel + 1, d, endT, cur =>
    if 0 < d ∧ cur + d ≤ endT then
      (cur, cur + d) :: emitTimesGo fuel d endT (cur + d)
    else []

/-- Subdivision of the free period `[cur, endT)` into `d`-minute slots. -/
def emitTimes (d endT cur : Nat) : List (Nat × Nat) :=
  emitTimesGo (endT - cur + 1) d endT cur

/-- The in-sweep emission loop, with the source's extra
`slotEnd <= workEnd` push guard (googleCalendar.ts:170). -/
def emitTimesBoundedGo : Nat → Nat → Nat → Nat → Nat → List (Nat × Nat)
  | 0, _, _, _, _ => []
  | fuel + 1, d, workEnd, endT, cur =>
    if 0 < d ∧ cur + d ≤ endT then
      (if cur + d ≤ workEnd then [(cur, cur + d)] else []) ++
        emitTimesBoundedGo fuel d workEnd endT (cur + d)
    else []

/-- Subdivision of `[cur, endT)` guarded by the working-hours end. -/
def emitTimesBounded (d workEnd endT cur : Nat) : List (Nat × Nat) :=
  emitTimesBoundedGo (endT - cur + 1) d workEnd endT cur

/-!
The free/busy sweep of `generateAvailableSlots`
(googleCalendar.ts:106-185, identically GoogleOAuthCallback.tsx:294-365)
-/

/-- The filter-and-sort step (googleCalendar.ts:123-128): keep intervals
overlapping working hours, then `.sort((a, b) => a.start - b.start)`.
JavaScript's `Array.prototype.sort` is stable, which `List.mergeSort` is. -/
def sortedBusyIntervals (workStart workEnd : Nat) (busy : List Ivl) : List Ivl :=
  (busy.filter (fun b => decide (b.start < workEnd) && decide (workStart < b.stop))).mergeSort
    (fun a b => decide (a.start ≤ b.start))

/-- The `for (let i = 0; i <= sorted.length; i++)` sweep
(googleCalendar.ts:149-181): the period before the next busy start is
subdivided, then the cursor is set to that busy interval's end (with no
`max` against the running cursor); the final period runs to `workEnd`. -/
def sweepPeriods (d workEnd : Nat) : Nat → List Ivl → List (Nat × Nat)
  | cur, [] => emitTimesBounded d workEnd workEnd cur
  | cur, b :: rest => emitTimesBounded d workEnd b.start cur ++ sweepPeriods d workEnd b.stop rest

/-- Function `generateAvailableSlots` reduced to its slot timestamps: the empty
branch (googleCalendar.ts:133-146) subdivides the whole window, the other
branch runs the sweep. -/
def generateAvailableSlotTimes (d workStart workEnd : Nat) (busy : List Ivl) : List (Nat × Nat) :=
  let sorted := sortedBusyIntervals workStart workEnd busy
  if sorted.isEmpty then emitTimes d workEnd workStart
  else sweepPeriods d workEnd workStart sorted

/-- Function `generateAvailableSlots` of googleCalendar.ts:106-185, producing the
`TimeSlot` records with their display strings.

Modelled from the spec: for aggregation purposes this also stands for the
per-day computation of `googleCalendarOAuth.ts`'s `getAvailableSlots`,
whose source file is absent from the repository snapshot (only its
callers and its `TimeSlot`/`AvailableSlot` type imports are present);
spec §4.1 describes a single sweep shared by both services, and the
present `googleCalendar.ts` sibling implements exactly this loop. -/
def generateAvailableSlots (d workStart workEnd : Nat) (busy : List Ivl) : List TimeSlot :=
  (generateAvailableSlotTimes d workStart workEnd busy).map (fun p =>
    { start := fmtHMA p.1, stop := fmtHMA p.2, startTime := p.1, endTime := p.2,
      selected := true, id := "" })

/-- Hook operation `useCalendarSlots.generateSlotsForDuration`
(GoogleOAuthCallback.tsx:294-365): the same sweep, with `selected: true`
and the id `` `${dateKey}-${HH:mm}-${slotDuration}` ``. -/
def generateSlotsForDuration (dateKey : String) (d workStart workEnd : Nat)
    (busy : List Ivl) : List TimeSlot :=
  (generateAvailableSlotTimes d workStart workEnd busy).map (fun p =>
    { start := fmtHMA p.1, stop := fmtHMA p.2, startTime := p.1, endTime := p.2,
      selected := true, id := dateKey ++ "-" ++ fmtHM p.1 ++ "-" ++ toString d })

/-!
The grouped merge
(`useCalendarSlots.generateGroupedSlots`, GoogleOAuthCallback.tsx:367-400;
the identical inline loop of `fetchCalendarData`,
GoogleCalendarView.tsx:337-362)
-/

/-- The inner `while (j < baseSlots.length && baseSlots[j].startTime ===
endSlot.endTime)` walk: returns the last slot of the run started before
`endSlot` and the slots remaining after the run. -/
def groupRun (endSlot : TimeSlot) : List TimeSlot → TimeSlot × List TimeSlot
  | [] => (endSlot, [])
  | s :: rest =>
    if s.startTime = endSlot.endTime then groupRun s rest else (endSlot, s :: rest)

/-- The merged slot pushed for a run from `currentSlot` to `endSlot`:
spans `[currentSlot.startTime, endSlot.endTime)`, keeps the display
strings of the run's ends, `selected: true`, and the id
`` `grouped-${dateKey}-${HH:mm}-${durationMinutes}` `` where
`durationMinutes = endSlot.endTime - currentSlot.startTime`. -/
def mkGrouped (dateKey : String) (currentSlot endSlot : TimeSlot) : TimeSlot :=
  { start := currentSlot.start, stop := endSlot.stop,
    startTime := currentSlot.startTime, endTime := endSlot.endTime,
    selected := true,
    id := "grouped-" ++ dateKey ++ "-" ++ fmtHM currentSlot.startTime ++ "-" ++
      toString (endSlot.endTime - currentSlot.startTime) }

/-- The outer `while (i < baseSlots.length)` loop.  Each iteration
consumes at least the slot at `i`, so the list length is structural fuel. -/
def generateGroupedSlotsGo : Nat → String → List TimeSlot → List TimeSlot
  | 0, _, _ => []
  | _, _, [] => []
  | fuel + 1, dateKey, s :: rest =>
    mkGrouped dateKey s (groupRun s rest).1 ::
      generateGroupedSlotsGo fuel dateKey (groupRun s rest).2

/-- Operation `generateGroupedSlots` (GoogleOAuthCallback.tsx:367-400). -/
def generateGroupedSlots (dateKey : String) (baseSlots : List TimeSlot) : List TimeSlot :=
  generateGroupedSlotsGo baseSlots.length dateKey baseSlots

/-- Specification-side partition of a slot list into maximal runs of
back-to-back slots (spec §4.1 `mergeAdjacent`): a run accumulates while
the next slot's start equals the current run's end and closes otherwise.
Stated independently of `generateGroupedSlots` to compare the code's
merge against the spec's description. -/
def maximalRuns : List TimeSlot → List (List TimeSlot)
  | [] => []
  | s :: rest =>
    match maximalRuns rest with
    | [] => [[s]]
    | [] :: rs => [s] :: [] :: rs
    | (t :: r) :: rs =>
      if s.endTime = t.startTime then (s :: t :: r) :: rs else [s] :: (t :: r) :: rs

/-- The merged slot of one (nonempty) run: from the run's first slot to
its last. -/
def mergeRun (dateKey : String) (r : List TimeSlot) : TimeSlot :=
  mkGrouped dateKey r.headI (r.getLastD r.headI)

/-!
Multi-strategy aggregation
(`fetchCalendarData`, GoogleCalendarView.tsx:285-442; the variant of
src/unnamed/part_009:423-513 for its custom branch)

Working hours are the defaults `{start: 9, end: 17}` (the source passes
`undefined` to `getAvailableSlots`), i.e. minutes 540 and 1020.
-/

/-- The default working window, minutes since midnight. -/
def workStartDefault : Nat := 540

/-- The default working-window end, minutes since midnight. -/
def workEndDefault : Nat := 1020

/-- The `selectedDurations` checkbox set of GoogleCalendarView.tsx:33. -/
structure DurationSelection where
  dur15 : Bool
  dur30 : Bool
  dur60 : Bool
  grouped : Bool
  custom : Bool
deriving DecidableEq

/-- Membership test `[15, 30, 60].filter(d => selectedDurations.has(d))`. -/
def durationSelected (sel : DurationSelection) (d : Nat) : Bool :=
  if d = 15 then sel.dur15 else if d = 30 then sel.dur30
  else if d = 60 then sel.dur60 else false

/-- The mapping `const closestDuration = customDuration <= 22 ? 15 : customDuration
<= 45 ? 30 : 60` (GoogleCalendarView.tsx:383). -/
def closestDuration (customDuration : Nat) : Nat :=
  if customDuration ≤ 22 then 15 else if customDuration ≤ 45 then 30 else 60

/-- The grouped branch of `fetchCalendarData`
(GoogleCalendarView.tsx:331-366): 30-minute base slots merged by the
grouped loop. -/
def groupedSlotsFor (dateKey : String) (busy : List Ivl) : List TimeSlot :=
  generateGroupedSlots dateKey (generateAvailableSlots 30 workStartDefault workEndDefault busy)

/-- One standard-duration branch of `fetchCalendarData`
(GoogleCalendarView.tsx:368-380): service slots re-tagged with
`selected: true` and the id `` `${duration}-${dateKey}-${slot.start}` ``. -/
def standardSlotsFor (dateKey : String) (d : Nat) (busy : List Ivl) : List TimeSlot :=
  (generateAvailableSlots d workStartDefault workEndDefault busy).map (fun s =>
    { s with selected := true, id := toString d ++ "-" ++ dateKey ++ "-" ++ s.start })

/-- The custom branch of `fetchCalendarData`
(GoogleCalendarView.tsx:382-394): slots are generated at
`closestDuration customDuration` — not at `customDuration` itself — and
re-tagged with the id `` `custom-${dateKey}-${slot.start}` ``. -/
def customSlotsFor (dateKey : String) (customDuration : Nat) (busy : List Ivl) : List TimeSlot :=
  (generateAvailableSlots (closestDuration customDuration) workStartDefault workEndDefault
    busy).map (fun s =>
      { s with selected := true, id := "custom-" ++ dateKey ++ "-" ++ s.start })

/-- The per-date aggregation of `fetchCalendarData`
(GoogleCalendarView.tsx:324-404): grouped, then 15/30/60, then custom
slots are concatenated into `allSlotsByDate` and finally sorted by
`startTime` with the stable `Array.prototype.sort`.  The custom branch
runs only when `customDuration > 0` (GoogleCalendarView.tsx:382). -/
def aggregateDay (sel : DurationSelection) (customDuration : Nat) (dateKey : String)
    (busy : List Ivl) : List TimeSlot :=
  ((if sel.grouped then groupedSlotsFor dateKey busy else []) ++
    (([15, 30, 60].filter (fun d => durationSelected sel d)).flatMap
      (fun d => standardSlotsFor dateKey d busy)) ++
    (if sel.custom && decide (0 < customDuration) then
      customSlotsFor dateKey customDuration busy else [])).mergeSort
    (fun a b => decide (a.startTime ≤ b.startTime))

/-- The whole availability computation over the selected dates, each given
by its `dateKey` and its fetched busy intervals (dates are assumed to have
distinct keys, as the `allSlotsByDate` map keys them by `yyyy-MM-dd`). -/
def aggregate (sel : DurationSelection) (customDuration : Nat)
    (days : List (String × List Ivl)) : List (String × List TimeSlot) :=
  days.map (fun day => (day.1, aggregateDay sel customDuration day.1 day.2))

/-!
Selection-state operations
(GoogleOAuthCallback.tsx:402-429; GoogleCalendarView.tsx:168-229)
-/

/-- The `AvailableSlot` record `{date, slots}`; the date is carried as its
`yyyy-MM-dd` key. -/
structure AvailableSlot where
  date : String
  slots : List TimeSlot
deriving DecidableEq

/-- Operation `toggleSlotSelection` (GoogleOAuthCallback.tsx:402-411,
GoogleCalendarView.tsx:210-229): map over all days and slots, flipping
`selected` where the id matches. -/
def toggleSlotSelection (slotId : String) (availability : List AvailableSlot) :
    List AvailableSlot :=
  availability.map (fun daySlot =>
    { daySlot with slots := daySlot.slots.map (fun slot =>
        if slot.id = slotId then { slot with selected := !slot.selected } else slot) })

/-- Operation `selectAllSlots` (GoogleOAuthCallback.tsx:413-420,
GoogleCalendarView.tsx:168-183). -/
def selectAllSlots (availability : List AvailableSlot) : List AvailableSlot :=
  availability.map (fun daySlot =>
    { daySlot with slots := daySlot.slots.map (fun slot => { slot with selected := true }) })

/-- Operation `deselectAllSlots` (GoogleOAuthCallback.tsx:422-429,
GoogleCalendarView.tsx:186-196). -/
def deselectAllSlots (availability : List AvailableSlot) : List AvailableSlot :=
  availability.map (fun daySlot =>
    { daySlot with slots := daySlot.slots.map (fun slot => { slot with selected := false }) })

/-!
Properties of the emission loop
-/

theorem emitTimesGo_mem : ∀ (fuel d endT cur : Nat) (p : Nat × Nat),
    p ∈ emitTimesGo fuel d endT cur → p.2 = p.1 + d ∧ 0 < d ∧ cur ≤ p.1 ∧ p.2 ≤ endT := by
  intro fuel
  induction fuel with
  | zero => intro d endT cur p hp; simp [emitTimesGo] at hp
  | succ n ih =>
    intro d endT cur p hp
    simp only [emitTimesGo] at hp
    split at hp
    case isTrue h =>
      rcases List.mem_cons.mp hp with rfl | hp'
      · exact ⟨rfl, h.1, Nat.le_refl _, h.2⟩
      · obtain ⟨h1, h2, h3, h4⟩ := ih d endT (cur + d) p hp'
        exact ⟨h1, h2, by omega, h4⟩
    case isFalse h => simp at hp

theorem emitTimesGo_head : ∀ (fuel d endT cur : Nat) (p : Nat × Nat),
    (emitTimesGo fuel d endT cur).head? = some p → p.1 = cur := by
  intro fuel d endT cur p hp
  cases fuel with
  | zero => simp [emitTimesGo] at hp
  | succ n =>
    simp only [emitTimesGo] at hp
    split at hp
    · simp only [List.head?_cons, Option.some.injEq] at hp
      rw [← hp]
    · simp at hp

theorem emitTimesGo_chain : ∀ (fuel d endT cur : Nat),
    List.Chain' (fun p q : Nat × Nat => p.2 = q.1) (emitTimesGo fuel d endT cur) := by
  intro fuel
  induction fuel with
  | zero => intro d endT cur; simp [emitTimesGo]
  | succ n ih =>
    intro d endT cur
    simp only [emitTimesGo]
    split
    · exact List.chain'_cons'.mpr
        ⟨fun y hy => (emitTimesGo_head n d endT (cur + d) y hy).symm, ih d endT (cur + d)⟩
    · exact List.chain'_nil

theorem emitTimesGo_closed (d : Nat) (hd : 0 < d) :
    ∀ (fuel endT cur : Nat), endT - cur < fuel →
      emitTimesGo fuel d endT cur =
        (List.range ((endT - cur) / d)).map (fun k => (cur + d * k, cur + d * k + d)) := by
  intro fuel
  induction fuel with
  | zero => intro endT cur h; omega
  | succ n ih =>
    intro endT cur h
    simp only [emitTimesGo]
    by_cases hle : cur + d ≤ endT
    · rw [if_pos ⟨hd, hle⟩, ih endT (cur + d) (by omega)]
      have hdiv : (endT - cur) / d = (endT - (cur + d)) / d + 1 := by
        rw [Nat.div_eq_sub_div hd (by omega), Nat.sub_sub]
      rw [hdiv, List.range_succ_eq_map, List.map_cons, List.map_map]
      refine congrArg₂ List.cons (by simp) ?_
      refine List.map_congr_left (fun k _ => ?_)
      simp only [Function.comp_apply, Prod.mk.injEq, Nat.mul_succ]
      omega
    · rw [if_neg (by intro hc; exact hle hc.2)]
      have : (endT - cur) / d = 0 := Nat.div_eq_of_lt (by omega)
      rw [this]
      simp

theorem emitTimes_closed (d endT cur : Nat) (hd : 0 < d) :
    emitTimes d endT cur =
      (List.range ((endT - cur) / d)).map (fun k => (cur + d * k, cur + d * k + d)) :=
  emitTimesGo_closed d hd _ endT cur (by omega)

theorem emitTimes_mem (d endT cur : Nat) (p : Nat × Nat) (hp : p ∈ emitTimes d endT cur) :
    p.2 = p.1 + d ∧ 0 < d ∧ cur ≤ p.1 ∧ p.2 ≤ endT :=
  emitTimesGo_mem _ d endT cur p hp

theorem emitTimes_chain (d endT cur : Nat) :
    List.Chain' (fun p q : Nat × Nat => p.2 = q.1) (emitTimes d endT cur) :=
  emitTimesGo_chain _ d endT cur

theorem emitTimesBoundedGo_eq : ∀ (fuel d workEnd endT cur : Nat), endT ≤ workEnd →
    emitTimesBoundedGo fuel d workEnd endT cur = emitTimesGo fuel d endT cur := by
  intro fuel
  induction fuel with
  | zero => intro d workEnd endT cur _; rfl
  | succ n ih =>
    intro d workEnd endT cur hwe
    simp only [emitTimesBoundedGo, emitTimesGo]
    split
    case isTrue h =>
      rw [if_pos (by omega), ih d workEnd endT (cur + d) hwe]
      rfl
    case isFalse h => rfl

theorem emitTimesBounded_eq (d workEnd endT cur : Nat) (hwe : endT ≤ workEnd) :
    emitTimesBounded d workEnd endT cur = emitTimes d endT cur :=
  emitTimesBoundedGo_eq _ d workEnd endT cur hwe

/-- C2: for every free gap `[gapStart, gapEnd)` of length `D = gapEnd -
gapStart` and every positive duration `d`, the subdivision loop emits
exactly `⌊D/d⌋` slots, the `k`-th located at `gapStart + k*d` with exact
length `d` (so the trailing `D mod d` minutes produce no slot); the
in-sweep guarded loop behaves identically whenever the gap ends inside
the working window; and with an empty busy set the sweep subdivides the
whole window `[ws, we)` this way. -/
theorem c2_subdivision_exact (d gapStart gapEnd workEnd : Nat) (hd : 0 < d) :
    emitTimes d gapEnd gapStart =
        (List.range ((gapEnd - gapStart) / d)).map
          (fun k => (gapStart + d * k, gapStart + d * k + d))
      ∧ (emitTimes d gapEnd gapStart).length = (gapEnd - gapStart) / d
      ∧ (gapEnd ≤ workEnd →
          emitTimesBounded d workEnd gapEnd gapStart = emitTimes d gapEnd gapStart)
      ∧ ∀ ws we : Nat, generateAvailableSlotTimes d ws we [] =
          (List.range ((we - ws) / d)).map (fun k => (ws + d * k, ws + d * k + d)) := by
  refine ⟨emitTimes_closed d gapEnd gapStart hd, ?_, fun h => emitTimesBounded_eq d _ _ _ h, ?_⟩
  · rw [emitTimes_closed d gapEnd gapStart hd]
    simp
  · intro ws we
    have hempty : sortedBusyIntervals ws we [] = [] := by
      simp [sortedBusyIntervals]
    simp only [generateAvailableSlotTimes, hempty, List.isEmpty_nil, if_true]
    exact emitTimes_closed d we ws hd

/-- Witness for C2 at `d = 30` on the default window: 16 slots, the first
at 9:00, none crossing 17:00. -/
theorem c2_subdivision_exact_witness :
    (0 : Nat) < 30 ∧ (emitTimes 30 1020 540).length = (1020 - 540) / 30 :=
  ⟨by decide, (c2_subdivision_exact 30 540 1020 1020 (by decide)).2.1⟩

/-!
Properties of the sweep
-/

theorem sweepPeriods_mem (d we : Nat) : ∀ (bs : List Ivl) (cur : Nat) (p : Nat × Nat),
    (∀ b ∈ bs, b.start ≤ we) → p ∈ sweepPeriods d we cur bs →
    p.2 = p.1 + d ∧ 0 < d ∧ (cur ≤ p.1 ∨ ∃ b ∈ bs, b.stop ≤ p.1) := by
  intro bs
  induction bs with
  | nil =>
    intro cur p _ hp
    simp only [sweepPeriods] at hp
    rw [emitTimesBounded_eq d we we cur (Nat.le_refl we)] at hp
    obtain ⟨h1, h2, h3, _⟩ := emitTimes_mem d we cur p hp
    exact ⟨h1, h2, Or.inl h3⟩
  | cons b rest ih =>
    intro cur p hbs hp
    simp only [sweepPeriods] at hp
    rw [emitTimesBounded_eq d we b.start cur (hbs b (List.mem_cons_self b rest))] at hp
    rcases List.mem_append.mp hp with h | h
    · obtain ⟨h1, h2, h3, _⟩ := emitTimes_mem d b.start cur p h
      exact ⟨h1, h2, Or.inl h3⟩
    · obtain ⟨h1, h2, h3⟩ := ih b.stop p (fun x hx => hbs x (List.mem_cons_of_mem b hx)) h
      rcases h3 with h3 | ⟨b', hb', hble⟩
      · exact ⟨h1, h2, Or.inr ⟨b, List.mem_cons_self b rest, h3⟩⟩
      · exact ⟨h1, h2, Or.inr ⟨b', List.mem_cons_of_mem b hb', hble⟩⟩

theorem sweepPeriods_chain (d we : Nat) : ∀ (bs : List Ivl) (cur : Nat),
    (∀ b ∈ bs, b.start ≤ we) → (∀ b ∈ bs, b.start < b.stop) →
    List.Pairwise (fun a b : Ivl => a.start ≤ b.start) bs →
    List.Chain' (fun p q : Nat × Nat => p.2 ≤ q.1) (sweepPeriods d we cur bs) := by
  intro bs
  induction bs with
  | nil =>
    intro cur _ _ _
    simp only [sweepPeriods]
    rw [emitTimesBounded_eq d we we cur (Nat.le_refl we)]
    exact (emitTimes_chain d we cur).imp (fun _ _ h => Nat.le_of_eq h)
  | cons b rest ih =>
    intro cur hbs hwfb hp
    simp only [sweepPeriods]
    rw [emitTimesBounded_eq d we b.start cur (hbs b (List.mem_cons_self b rest))]
    refine List.chain'_append.mpr
      ⟨(emitTimes_chain d b.start cur).imp (fun _ _ h => Nat.le_of_eq h),
       ih b.stop (fun x hx => hbs x (List.mem_cons_of_mem b hx))
         (fun x hx => hwfb x (List.mem_cons_of_mem b hx)) (List.pairwise_cons.mp hp).2, ?_⟩
    intro x hx y hy
    have hxm : x ∈ emitTimes d b.start cur := List.mem_of_getLast?_eq_some hx
    have hym : y ∈ sweepPeriods d we b.stop rest := List.mem_of_mem_head? hy
    have hxe : x.2 ≤ b.start := (emitTimes_mem d b.start cur x hxm).2.2.2
    obtain ⟨-, -, hylb⟩ :=
      sweepPeriods_mem d we rest b.stop y (fun x' hx' => hbs x' (List.mem_cons_of_mem b hx')) hym
    have hbwf : b.start < b.stop := hwfb b (List.mem_cons_self b rest)
    rcases hylb with h | ⟨b', hb', hble⟩
    · omega
    · have : b.start ≤ b'.start := (List.pairwise_cons.mp hp).1 b' hb'
      have : b'.start < b'.stop := hwfb b' (List.mem_cons_of_mem b hb')
      omega

/-- From a disjointness chain and positive slot lengths, the head slot
ends before every later slot starts. -/
theorem chain'_le_rel_head : ∀ (l : List (Nat × Nat)) (x : Nat × Nat),
    List.Chain' (fun p q : Nat × Nat => p.2 ≤ q.1) (x :: l) →
    (∀ p ∈ l, p.1 < p.2) → ∀ b ∈ l, x.2 ≤ b.1 := by
  intro l
  induction l with
  | nil => intro x _ _ b hb; simp at hb
  | cons y l' ih =>
    intro x hc hm b hb
    have hxy : x.2 ≤ y.1 := (List.chain'_cons.mp hc).1
    rcases List.mem_cons.mp hb with rfl | hb'
    · exact hxy
    · have hyb := ih y (List.chain'_cons.mp hc).2
        (fun p hp => hm p (List.mem_cons_of_mem y hp)) b hb'
      have hy : y.1 < y.2 := hm y (List.mem_cons_self y l')
      omega

/-- A disjointness chain of positive-length slots is pairwise disjoint. -/
theorem chain'_le_pairwise : ∀ (l : List (Nat × Nat)),
    List.Chain' (fun p q : Nat × Nat => p.2 ≤ q.1) l →
    (∀ p ∈ l, p.1 < p.2) → List.Pairwise (fun p q : Nat × Nat => p.2 ≤ q.1) l := by
  intro l
  induction l with
  | nil => intro _ _; exact List.Pairwise.nil
  | cons x l' ih =>
    intro hc hm
    refine List.pairwise_cons.mpr
      ⟨chain'_le_rel_head l' x hc (fun p hp => hm p (List.mem_cons_of_mem x hp)), ?_⟩
    exact ih ((List.chain'_cons'.mp hc).2) (fun p hp => hm p (List.mem_cons_of_mem x hp))

/-- With no busy intervals the sweep reduces to subdividing the window. -/
theorem generateAvailableSlotTimes_nil (d ws we : Nat) :
    generateAvailableSlotTimes d ws we [] = emitTimes d we ws := by
  simp [generateAvailableSlotTimes, sortedBusyIntervals]

/-- Every interval the sort step keeps overlaps the window, and keeps the
well-formedness of its source interval. -/
theorem sortedBusyIntervals_mem (ws we : Nat) (busy : List Ivl) (b : Ivl)
    (hb : b ∈ sortedBusyIntervals ws we busy) :
    b ∈ busy ∧ b.start < we ∧ ws < b.stop := by
  rw [sortedBusyIntervals, List.mem_mergeSort, List.mem_filter] at hb
  refine ⟨hb.1, ?_, ?_⟩ <;> · have := hb.2; simp only [Bool.and_eq_true, decide_eq_true_eq] at this; omega

/-- The sort step orders the kept intervals by start, ascending. -/
theorem sortedBusyIntervals_pairwise (ws we : Nat) (busy : List Ivl) :
    List.Pairwise (fun a b : Ivl => a.start ≤ b.start) (sortedBusyIntervals ws we busy) := by
  have h := @List.sorted_mergeSort Ivl (fun a b : Ivl => decide (a.start ≤ b.start))
    (fun a b c hab hbc => by simp only [decide_eq_true_eq] at *; omega)
    (fun a b => by simp only [Bool.or_eq_true, decide_eq_true_eq]; omega)
    (busy.filter (fun b => decide (b.start < we) && decide (ws < b.stop)))
  exact h.imp (fun hab => by simpa using hab)

/-- Every slot the sweep emits has exact length `d` (emission happens
only under the loop guard, so this needs no positivity hypothesis). -/
theorem generateAvailableSlotTimes_mem (d ws we : Nat) (busy : List Ivl) (p : Nat × Nat)
    (hp : p ∈ generateAvailableSlotTimes d ws we busy) : p.2 = p.1 + d ∧ 0 < d := by
  rw [generateAvailableSlotTimes] at hp
  split at hp
  · obtain ⟨h1, h2, -, -⟩ := emitTimes_mem d we ws p hp
    exact ⟨h1, h2⟩
  · obtain ⟨h1, h2, -⟩ := sweepPeriods_mem d we (sortedBusyIntervals ws we busy) ws p
      (fun b hb => Nat.le_of_lt (sortedBusyIntervals_mem ws we busy b hb).2.1) hp
    exact ⟨h1, h2⟩

/-- C10: for every duration, window and busy set — sorted or not,
overlapping or nested — the slots emitted by one invocation of the sweep
are strictly ascending (each slot starts no earlier than the previous
slot's end) and pairwise disjoint, and each has exact length `d`.
Busy intervals are assumed well-formed (`start < stop`), the `Interval`
invariant of the data model (spec §3). -/
theorem c10_sweep_slots_ordered (d ws we : Nat) (busy : List Ivl) (hd : 0 < d)
    (hwf : ∀ b ∈ busy, b.start < b.stop) :
    List.Chain' (fun p q : Nat × Nat => p.2 ≤ q.1) (generateAvailableSlotTimes d ws we busy)
    ∧ List.Pairwise (fun p q : Nat × Nat => p.2 ≤ q.1) (generateAvailableSlotTimes d ws we busy)
    ∧ ∀ p ∈ generateAvailableSlotTimes d ws we busy, p.2 = p.1 + d ∧ p.1 < p.2 := by
  have hmemall : ∀ p ∈ generateAvailableSlotTimes d ws we busy, p.2 = p.1 + d ∧ p.1 < p.2 := by
    intro p hp
    obtain ⟨h1, h2⟩ := generateAvailableSlotTimes_mem d ws we busy p hp
    exact ⟨h1, by omega⟩
  have hchain : List.Chain' (fun p q : Nat × Nat => p.2 ≤ q.1)
      (generateAvailableSlotTimes d ws we busy) := by
    rw [generateAvailableSlotTimes]
    split
    · exact (emitTimes_chain d we ws).imp (fun _ _ h => Nat.le_of_eq h)
    · exact sweepPeriods_chain d we (sortedBusyIntervals ws we busy) ws
        (fun b hb => Nat.le_of_lt (sortedBusyIntervals_mem ws we busy b hb).2.1)
        (fun b hb => hwf b (sortedBusyIntervals_mem ws we busy b hb).1)
        (sortedBusyIntervals_pairwise ws we busy)
  exact ⟨hchain, chain'_le_pairwise _ hchain (fun p hp => (hmemall p hp).2), hmemall⟩

/-- Witness for C10 on a nested, unsorted busy set: 9:00-12:00 containing
10:00-10:30, plus 13:00-13:10, with 30-minute slots. -/
theorem c10_sweep_slots_ordered_witness :
    (0 : Nat) < 30
    ∧ List.Pairwise (fun p q : Nat × Nat => p.2 ≤ q.1)
        (generateAvailableSlotTimes 30 540 1020
          [Ivl.mk 600 630, Ivl.mk 540 720, Ivl.mk 780 790]) :=
  ⟨by decide,
    (c10_sweep_slots_ordered 30 540 1020 [Ivl.mk 600 630, Ivl.mk 540 720, Ivl.mk 780 790]
      (by decide) (by decide)).2.1⟩

/-!
C1: overlap with nested busy intervals
-/

/-- C1 fails on the code: on the window 9:00-17:00 with 30-minute slots
and the busy set {9:00-12:00, 10:00-10:30} (the second interval nested in
the first), the sweep resets its cursor to the nested interval's end
10:30 without taking the maximum against the running cursor
(googleCalendar.ts:157/161), so it emits the slot 10:30-11:00 — which
overlaps the clipped busy interval 9:00-12:00. -/
theorem c1_slots_overlap_nested_busy :
    ∃ p ∈ generateAvailableSlotTimes 30 540 1020 [Ivl.mk 540 720, Ivl.mk 600 630],
      ∃ b ∈ [Ivl.mk 540 720, Ivl.mk 600 630],
        ¬ (p.2 ≤ max b.start 540 ∨ min b.stop 1020 ≤ p.1) := by
  have hfilter : ([Ivl.mk 540 720, Ivl.mk 600 630].filter
      (fun b => decide (b.start < 1020) && decide (540 < b.stop))) =
      [Ivl.mk 540 720, Ivl.mk 600 630] := by decide
  have hs : sortedBusyIntervals 540 1020 [Ivl.mk 540 720, Ivl.mk 600 630] =
      [Ivl.mk 540 720, Ivl.mk 600 630] := by
    rw [sortedBusyIntervals, hfilter]
    exact List.mergeSort_of_sorted (by decide)
  have hout : generateAvailableSlotTimes 30 540 1020 [Ivl.mk 540 720, Ivl.mk 600 630] =
      sweepPeriods 30 1020 540 [Ivl.mk 540 720, Ivl.mk 600 630] := by
    rw [generateAvailableSlotTimes, hs]
    rfl
  rw [hout]
  decide

/-!
C6: slot lengths per strategy
-/

/-- C6 as stated is false for the custom strategy: with `customMinutes =
45` (and, say, an empty busy set) the custom branch generates slots at
the "closest" standard duration 30 (GoogleCalendarView.tsx:383), so every
emitted slot has length 30, which is not a multiple of 45. -/
theorem c6_custom_not_multiple_cex :
    ∃ s ∈ aggregateDay ⟨false, false, false, false, true⟩ 45 "2025-01-06" [],
      ¬ (45 ∣ (s.endTime - s.startTime)) := by
  have hagg : aggregateDay ⟨false, false, false, false, true⟩ 45 "2025-01-06" [] =
      (customSlotsFor "2025-01-06" 45 []).mergeSort
        (fun a b => decide (a.startTime ≤ b.startTime)) := rfl
  simp only [hagg, List.mem_mergeSort]
  rw [customSlotsFor, generateAvailableSlots, generateAvailableSlotTimes_nil]
  decide

/-- C6 amended: every slot of a fixed-duration strategy has `start < end`
and length exactly the governing duration `d` (hence an exact multiple);
slots of the custom strategy with `customMinutes = m` instead have length
exactly `closestDuration m` — the nearest of 15/30/60 (15 for `m ≤ 22`,
30 for `m ≤ 45`, else 60) — which is a multiple of that mapped standard
duration but in general not of `m`. -/
theorem c6_slot_length_amended (dateKey : String) (busy : List Ivl) (cd : Nat) :
    (∀ d : Nat, ∀ s ∈ standardSlotsFor dateKey d busy,
        s.startTime < s.endTime ∧ s.endTime - s.startTime = d
          ∧ d ∣ (s.endTime - s.startTime))
    ∧ (∀ s ∈ customSlotsFor dateKey cd busy,
        s.startTime < s.endTime ∧ s.endTime - s.startTime = closestDuration cd
          ∧ closestDuration cd ∣ (s.endTime - s.startTime))
    ∧ (closestDuration cd = 15 ∨ closestDuration cd = 30 ∨ closestDuration cd = 60) := by
  have hcore : ∀ (d : Nat) (s : TimeSlot),
      s ∈ generateAvailableSlots d workStartDefault workEndDefault busy →
      s.startTime < s.endTime ∧ s.endTime - s.startTime = d := by
    intro d s hs
    rw [generateAvailableSlots] at hs
    obtain ⟨p, hp, rfl⟩ := List.mem_map.mp hs
    obtain ⟨h1, h2⟩ := generateAvailableSlotTimes_mem d workStartDefault workEndDefault busy p hp
    constructor <;> simp <;> omega
  refine ⟨?_, ?_, ?_⟩
  · intro d s hs
    rw [standardSlotsFor] at hs
    obtain ⟨t, ht, rfl⟩ := List.mem_map.mp hs
    obtain ⟨h1, h2⟩ := hcore d t ht
    refine ⟨h1, h2, ?_⟩
    show d ∣ (t.endTime - t.startTime)
    rw [h2]
  · intro s hs
    rw [customSlotsFor] at hs
    obtain ⟨t, ht, rfl⟩ := List.mem_map.mp hs
    obtain ⟨h1, h2⟩ := hcore (closestDuration cd) t ht
    refine ⟨h1, h2, ?_⟩
    show closestDuration cd ∣ (t.endTime - t.startTime)
    rw [h2]
  · rw [closestDuration]
    split
    · exact Or.inl rfl
    · split
      · exact Or.inr (Or.inl rfl)
      · exact Or.inr (Or.inr rfl)

/-- Witness for the amended C6 at `customMinutes = 45`: the governing
duration of the custom slots is the mapped standard duration. -/
theorem c6_slot_length_amended_witness :
    closestDuration 45 = 15 ∨ closestDuration 45 = 30 ∨ closestDuration 45 = 60 :=
  (c6_slot_length_amended "2025-01-06" [] 45).2.2

/-!
C7: no validation of the custom duration
-/

/-- C7 fails on the code: `fetchCalendarData` checks only `customDuration
> 0` (GoogleCalendarView.tsx:382) and performs no `[5, 120]` range
validation.  With `customMinutes = 200` — far outside `[5, 120]` — the
computation signals nothing and returns a normal list of eight 60-minute
slots for a free 9:00-17:00 day. -/
theorem c7_custom_out_of_range_not_rejected :
    (aggregateDay ⟨false, false, false, false, true⟩ 200 "2025-01-06" []).length = 8
    ∧ (aggregateDay ⟨false, false, false, false, true⟩ 200 "2025-01-06" []).all
        (fun s => decide (s.endTime - s.startTime = 60)) = true := by
  have hagg : aggregateDay ⟨false, false, false, false, true⟩ 200 "2025-01-06" [] =
      (customSlotsFor "2025-01-06" 200 []).mergeSort
        (fun a b => decide (a.startTime ≤ b.startTime)) := rfl
  constructor
  · rw [hagg, List.length_mergeSort, customSlotsFor, List.length_map,
      generateAvailableSlots, List.length_map, generateAvailableSlotTimes_nil]
    decide
  · rw [List.all_eq_true]
    intro s hs
    rw [hagg, List.mem_mergeSort, customSlotsFor, generateAvailableSlots,
      generateAvailableSlotTimes_nil] at hs
    revert hs
    revert s
    decide

/-!
C5: the pre-sweep sort order
-/

/-- C5 fails on the code: the comparator is `a.start - b.start` with no
tie-break (googleCalendar.ts:128), and JavaScript's sort is stable, so two
intervals sharing a start keep their input order.  With the longer
interval first in the input — [10:00, 12:00) then [10:00, 11:00) — the
sorted list is not ordered by end ascending at the shared start. -/
theorem c5_no_end_tiebreak_cex :
    ¬ List.Pairwise
        (fun a b : Ivl => a.start < b.start ∨ (a.start = b.start ∧ a.stop ≤ b.stop))
        (sortedBusyIntervals 540 1020 [Ivl.mk 600 720, Ivl.mk 600 660]) := by
  have hfilter : ([Ivl.mk 600 720, Ivl.mk 600 660].filter
      (fun b => decide (b.start < 1020) && decide (540 < b.stop))) =
      [Ivl.mk 600 720, Ivl.mk 600 660] := by decide
  have hs : sortedBusyIntervals 540 1020 [Ivl.mk 600 720, Ivl.mk 600 660] =
      [Ivl.mk 600 720, Ivl.mk 600 660] := by
    rw [sortedBusyIntervals, hfilter]
    exact List.mergeSort_of_sorted (by decide)
  rw [hs]
  decide

/-- C5 amended: before the sweep the overlapping busy intervals are
sorted by start ascending; intervals sharing a start keep their relative
input order (the sort is stable) — there is no end tie-break.  Stability
is stated as: any two kept intervals already in weakly-ascending start
order stay in that order in the output. -/
theorem c5_sort_stable_amended (ws we : Nat) (busy : List Ivl) :
    List.Pairwise (fun a b : Ivl => a.start ≤ b.start) (sortedBusyIntervals ws we busy)
    ∧ (sortedBusyIntervals ws we busy).Perm
        (busy.filter (fun b => decide (b.start < we) && decide (ws < b.stop)))
    ∧ (∀ a b : Ivl, a.start ≤ b.start →
        [a, b].Sublist (busy.filter (fun b => decide (b.start < we) && decide (ws < b.stop))) →
        [a, b].Sublist (sortedBusyIntervals ws we busy)) := by
  refine ⟨sortedBusyIntervals_pairwise ws we busy, List.mergeSort_perm _ _, ?_⟩
  intro a b hab hsub
  exact List.pair_sublist_mergeSort
    (fun a b c hab hbc => by simp only [decide_eq_true_eq] at *; omega)
    (fun a b => by simp only [Bool.or_eq_true, decide_eq_true_eq]; omega)
    (by simpa using hab) hsub

/-- Witness for the amended C5: the two equal-start intervals of the
counterexample stay in input order. -/
theorem c5_sort_stable_amended_witness :
    (600 : Nat) ≤ 600 ∧
      [Ivl.mk 600 720, Ivl.mk 600 660].Sublist
        (sortedBusyIntervals 540 1020 [Ivl.mk 600 720, Ivl.mk 600 660]) :=
  ⟨by decide,
    (c5_sort_stable_amended 540 1020 [Ivl.mk 600 720, Ivl.mk 600 660]).2.2
      (Ivl.mk 600 720) (Ivl.mk 600 660) (by decide) (by decide)⟩

/-!
C4: deterministic identifiers
-/

/-- C4: the aggregation is a pure function of its inputs — every slot id
is synthesized from the strategy tag, the date key and the slot's
formatted times, with no clock, randomness or other ambient state — so
two runs on identical inputs produce identical id sequences, in order and
value. -/
theorem c4_aggregate_ids_deterministic (sel sel' : DurationSelection) (cd cd' : Nat)
    (days days' : List (String × List Ivl))
    (h1 : sel = sel') (h2 : cd = cd') (h3 : days = days') :
    (aggregate sel cd days).map (fun day => day.2.map TimeSlot.id)
      = (aggregate sel' cd' days').map (fun day => day.2.map TimeSlot.id) := by
  subst h1
  subst h2
  subst h3
  rfl

/-- Witness for C4 at a concrete two-strategy input. -/
theorem c4_aggregate_ids_deterministic_witness :
    (aggregate ⟨false, true, false, true, false⟩ 45 [("2025-01-06", [Ivl.mk 600 660])]).map
        (fun day => day.2.map TimeSlot.id)
      = (aggregate ⟨false, true, false, true, false⟩ 45 [("2025-01-06", [Ivl.mk 600 660])]).map
        (fun day => day.2.map TimeSlot.id) :=
  c4_aggregate_ids_deterministic ⟨false, true, false, true, false⟩ ⟨false, true, false, true, false⟩
    45 45 [("2025-01-06", [Ivl.mk 600 660])] [("2025-01-06", [Ivl.mk 600 660])] rfl rfl rfl

/-- Mapping a function that fixes every member of a list is the identity. -/
theorem map_eq_self_of_forall {α : Type} (f : α → α) : ∀ (l : List α),
    (∀ a ∈ l, f a = a) → l.map f = l := by
  intro l
  induction l with
  | nil => intro _; rfl
  | cons x xs ih =>
    intro h
    simp only [List.map_cons]
    rw [h x (List.mem_cons_self x xs), ih (fun a ha => h a (List.mem_cons_of_mem x ha))]

/-!
C8: toggling one slot
-/

/-- C8: `toggleSlotSelection` preserves the day count, every date, every
per-day slot count and every field of every slot except that the slot
whose id matches has its `selected` flag flipped; when no slot carries
the id the availability is returned unchanged. -/
theorem c8_toggle_frame (slotId : String) (availability : List AvailableSlot) :
    ((toggleSlotSelection slotId availability).length = availability.length)
    ∧ (∀ i : Nat, ((toggleSlotSelection slotId availability)[i]?).map AvailableSlot.date
        = (availability[i]?).map AvailableSlot.date)
    ∧ (∀ i : Nat, ((toggleSlotSelection slotId availability)[i]?).map
          (fun day => day.slots.length)
        = (availability[i]?).map (fun day => day.slots.length))
    ∧ (∀ (i j : Nat) (s s' : TimeSlot),
        (availability[i]?.bind (fun day => day.slots[j]?)) = some s →
        ((toggleSlotSelection slotId availability)[i]?.bind (fun day => day.slots[j]?))
          = some s' →
        (s'.start = s.start ∧ s'.stop = s.stop ∧ s'.startTime = s.startTime
          ∧ s'.endTime = s.endTime ∧ s'.id = s.id
          ∧ (s.id = slotId → s'.selected = !s.selected)
          ∧ (s.id ≠ slotId → s' = s)))
    ∧ ((∀ day ∈ availability, ∀ s ∈ day.slots, s.id ≠ slotId) →
        toggleSlotSelection slotId availability = availability) := by
  refine ⟨by simp [toggleSlotSelection], ?_, ?_, ?_, ?_⟩
  · intro i
    rcases h : availability[i]? with _ | day <;>
      simp [toggleSlotSelection, List.getElem?_map, h]
  · intro i
    rcases h : availability[i]? with _ | day <;>
      simp [toggleSlotSelection, List.getElem?_map, h]
  · intro i j s s' hs hs'
    rcases h : availability[i]? with _ | day
    · rw [h] at hs
      simp at hs
    · rw [h] at hs
      simp only [Option.some_bind] at hs
      rw [toggleSlotSelection, List.getElem?_map, h] at hs'
      simp only [Option.map_some', Option.some_bind, List.getElem?_map, hs,
        Option.some.injEq] at hs'
      by_cases hid : s.id = slotId
      · rw [if_pos hid] at hs'
        subst hs'
        simp [hid]
      · rw [if_neg hid] at hs'
        subst hs'
        simp [hid]
  · intro hnone
    rw [toggleSlotSelection]
    refine map_eq_self_of_forall _ availability (fun day hday => ?_)
    have hslots : day.slots.map (fun slot =>
        if slot.id = slotId then { slot with selected := !slot.selected } else slot)
        = day.slots :=
      map_eq_self_of_forall _ day.slots (fun s hs => if_neg (hnone day hday s hs))
    simp [hslots]

/-- Witness for C8: toggling an unknown id on a concrete availability is
the identity. -/
theorem c8_toggle_frame_witness :
    toggleSlotSelection "missing"
        [AvailableSlot.mk "2025-01-06"
          [TimeSlot.mk "9:00 AM" "9:30 AM" 540 570 true "30-2025-01-06-9:00 AM"]]
      = [AvailableSlot.mk "2025-01-06"
          [TimeSlot.mk "9:00 AM" "9:30 AM" 540 570 true "30-2025-01-06-9:00 AM"]] :=
  (c8_toggle_frame "missing"
    [AvailableSlot.mk "2025-01-06"
      [TimeSlot.mk "9:00 AM" "9:30 AM" 540 570 true "30-2025-01-06-9:00 AM"]]).2.2.2.2
    (by decide)

/-!
C9: select all / deselect all
-/

/-- C9: `selectAllSlots` sets every slot's `selected` to `true` and
`deselectAllSlots` to `false`, across all dates, preserving the day
count, every date and every other slot field; both are idempotent. -/
theorem c9_select_deselect_all (availability : List AvailableSlot) :
    (∀ day ∈ selectAllSlots availability, ∀ s ∈ day.slots, s.selected = true)
    ∧ (∀ day ∈ deselectAllSlots availability, ∀ s ∈ day.slots, s.selected = false)
    ∧ ((selectAllSlots availability).length = availability.length
        ∧ (deselectAllSlots availability).length = availability.length)
    ∧ (∀ i : Nat, ((selectAllSlots availability)[i]?).map AvailableSlot.date
          = (availability[i]?).map AvailableSlot.date
        ∧ ((deselectAllSlots availability)[i]?).map AvailableSlot.date
          = (availability[i]?).map AvailableSlot.date)
    ∧ (∀ (i j : Nat) (s s' : TimeSlot),
        (availability[i]?.bind (fun day => day.slots[j]?)) = some s →
        (((selectAllSlots availability)[i]?.bind (fun day => day.slots[j]?)) = some s' →
          s' = { s with selected := true })
        ∧ (((deselectAllSlots availability)[i]?.bind (fun day => day.slots[j]?)) = some s' →
          s' = { s with selected := false }))
    ∧ selectAllSlots (selectAllSlots availability) = selectAllSlots availability
    ∧ deselectAllSlots (deselectAllSlots availability) = deselectAllSlots availability := by
  refine ⟨?_, ?_, ⟨by simp [selectAllSlots], by simp [deselectAllSlots]⟩, ?_, ?_, ?_, ?_⟩
  · intro day hday s hs
    obtain ⟨day', -, rfl⟩ := List.mem_map.mp hday
    obtain ⟨s', -, rfl⟩ := List.mem_map.mp hs
    rfl
  · intro day hday s hs
    obtain ⟨day', -, rfl⟩ := List.mem_map.mp hday
    obtain ⟨s', -, rfl⟩ := List.mem_map.mp hs
    rfl
  · intro i
    constructor <;> rcases h : availability[i]? with _ | day <;>
      simp [selectAllSlots, deselectAllSlots, List.getElem?_map, h]
  · intro i j s s' hs
    rcases h : availability[i]? with _ | day
    · rw [h] at hs
      simp at hs
    · rw [h] at hs
      simp only [Option.some_bind] at hs
      constructor <;> intro hs'
      · rw [selectAllSlots, List.getElem?_map, h] at hs'
        simp only [Option.map_some', Option.some_bind, List.getElem?_map, hs,
          Option.some.injEq] at hs'
        exact hs'.symm
      · rw [deselectAllSlots, List.getElem?_map, h] at hs'
        simp only [Option.map_some', Option.some_bind, List.getElem?_map, hs,
          Option.some.injEq] at hs'
        exact hs'.symm
  · simp [selectAllSlots, List.map_map]
  · simp [deselectAllSlots, List.map_map]

/-- Witness for C9 on a concrete availability: select-all is idempotent. -/
theorem c9_select_deselect_all_witness :
    selectAllSlots (selectAllSlots
        [AvailableSlot.mk "2025-01-06"
          [TimeSlot.mk "9:00 AM" "9:30 AM" 540 570 false "30-2025-01-06-9:00 AM"]])
      = selectAllSlots
        [AvailableSlot.mk "2025-01-06"
          [TimeSlot.mk "9:00 AM" "9:30 AM" 540 570 false "30-2025-01-06-9:00 AM"]] :=
  (c9_select_deselect_all
    [AvailableSlot.mk "2025-01-06"
      [TimeSlot.mk "9:00 AM" "9:30 AM" 540 570 false "30-2025-01-06-9:00 AM"]]).2.2.2.2.2.1

/-!
C3: properties of the grouped merge
-/

/-- Defining equation of `maximalRuns` on a cons cell. -/
theorem maximalRuns_cons_eq (s : TimeSlot) (rest : List TimeSlot) :
    maximalRuns (s :: rest) =
      match maximalRuns rest with
      | [] => [[s]]
      | [] :: rs => [s] :: [] :: rs
      | (t :: r) :: rs =>
        if s.endTime = t.startTime then (s :: t :: r) :: rs else [s] :: (t :: r) :: rs := rfl

/-- When the inner grouping walk stops before a slot, that slot is not
adjacent to the run's last slot. -/
theorem groupRun_stop : ∀ (l : List TimeSlot) (e u : TimeSlot) (rem : List TimeSlot),
    (groupRun e l).2 = u :: rem → u.startTime ≠ (groupRun e l).1.endTime := by
  intro l
  induction l with
  | nil => intro e u rem h; simp [groupRun] at h
  | cons s rest ih =>
    intro e u rem h
    by_cases hadj : s.startTime = e.endTime
    · simp only [groupRun, if_pos hadj] at h ⊢
      exact ih s u rem h
    · simp only [groupRun, if_neg hadj] at h ⊢
      injection h with h1 h2
      subst h1
      exact hadj

/-- Structure of one step of the merge: `maximalRuns (s :: rest)` starts
with the run `s :: pre` closed exactly where `groupRun s rest` stops; the
run ends at `groupRun`'s end slot, reassembles the input, and is
internally back-to-back. -/
theorem maximalRuns_cons : ∀ (rest : List TimeSlot) (s : TimeSlot),
    ∃ pre : List TimeSlot,
      maximalRuns (s :: rest) = (s :: pre) :: maximalRuns (groupRun s rest).2
      ∧ List.getLastD pre s = (groupRun s rest).1
      ∧ s :: rest = (s :: pre) ++ (groupRun s rest).2
      ∧ List.Chain' (fun a b : TimeSlot => a.endTime = b.startTime) (s :: pre) := by
  intro rest
  induction rest with
  | nil =>
    intro s
    exact ⟨[], rfl, rfl, rfl, by simp⟩
  | cons t rest' ih =>
    intro s
    obtain ⟨pre', heq', hlast', hconcat', hchain'⟩ := ih t
    by_cases hadj : t.startTime = s.endTime
    · have hgr : groupRun s (t :: rest') = groupRun t rest' := by
        simp only [groupRun, if_pos hadj]
      refine ⟨t :: pre', ?_, ?_, ?_, ?_⟩
      · rw [maximalRuns_cons_eq, heq', hgr]
        exact if_pos hadj.symm
      · rw [List.getLastD_cons, hgr]
        exact hlast'
      · rw [hgr, List.cons_append]
        exact congrArg (List.cons s) hconcat'
      · exact List.chain'_cons.mpr ⟨hadj.symm, hchain'⟩
    · have hgr : groupRun s (t :: rest') = (s, t :: rest') := by
        simp only [groupRun, if_neg hadj]
      refine ⟨[], ?_, by simp [hgr], by simp [hgr], by simp⟩
      rw [maximalRuns_cons_eq, heq', hgr, heq']
      exact if_neg (fun h => hadj h.symm)

/-- The merge loop emits exactly one merged slot per maximal run. -/
theorem generateGroupedSlotsGo_eq (dateKey : String) : ∀ (fuel : Nat) (l : List TimeSlot),
    l.length ≤ fuel →
    generateGroupedSlotsGo fuel dateKey l = (maximalRuns l).map (mergeRun dateKey) := by
  intro fuel
  induction fuel with
  | zero =>
    intro l h
    have : l = [] := List.length_eq_zero.mp (by omega)
    subst this
    rfl
  | succ n ih =>
    intro l h
    cases l with
    | nil => rfl
    | cons s rest =>
      obtain ⟨pre, heq, hlast, hconcat, -⟩ := maximalRuns_cons rest s
      simp only [generateGroupedSlotsGo]
      rw [heq, List.map_cons]
      have hrem : (groupRun s rest).2.length ≤ n := by
        have hlen := congrArg List.length hconcat
        simp only [List.length_cons, List.length_append] at hlen
        simp only [List.length_cons] at h
        omega
      rw [ih (groupRun s rest).2 hrem]
      have hmerge : mkGrouped dateKey s (groupRun s rest).1 = mergeRun dateKey (s :: pre) := by
        rw [mergeRun, List.headI_cons, ← hlast, List.getLastD_cons]
      rw [hmerge]

/-- The maximal runs reassemble the input list. -/
theorem maximalRuns_flatten : ∀ (n : Nat) (l : List TimeSlot), l.length ≤ n →
    (maximalRuns l).flatten = l := by
  intro n
  induction n with
  | zero =>
    intro l h
    have : l = [] := List.length_eq_zero.mp (by omega)
    subst this
    rfl
  | succ n ih =>
    intro l h
    cases l with
    | nil => rfl
    | cons s rest =>
      obtain ⟨pre, heq, -, hconcat, -⟩ := maximalRuns_cons rest s
      have hrem : (groupRun s rest).2.length ≤ n := by
        have hlen := congrArg List.length hconcat
        simp only [List.length_cons, List.length_append] at hlen
        simp only [List.length_cons] at h
        omega
      rw [heq, List.flatten_cons, ih (groupRun s rest).2 hrem]
      exact hconcat.symm

/-- Every maximal run is nonempty and internally back-to-back. -/
theorem maximalRuns_runs : ∀ (n : Nat) (l : List TimeSlot), l.length ≤ n →
    ∀ r ∈ maximalRuns l,
      r ≠ [] ∧ List.Chain' (fun a b : TimeSlot => a.endTime = b.startTime) r := by
  intro n
  induction n with
  | zero =>
    intro l h
    have : l = [] := List.length_eq_zero.mp (by omega)
    subst this
    simp [maximalRuns]
  | succ n ih =>
    intro l h
    cases l with
    | nil => simp [maximalRuns]
    | cons s rest =>
      obtain ⟨pre, heq, -, hconcat, hchain⟩ := maximalRuns_cons rest s
      have hrem : (groupRun s rest).2.length ≤ n := by
        have hlen := congrArg List.length hconcat
        simp only [List.length_cons, List.length_append] at hlen
        simp only [List.length_cons] at h
        omega
      rw [heq]
      intro r hr
      rcases List.mem_cons.mp hr with rfl | hr'
      · exact ⟨by simp, hchain⟩
      · exact ih (groupRun s rest).2 hrem r hr'

/-- Consecutive maximal runs are separated by a non-adjacency: the last
slot of a run does not end where the next run starts (maximality). -/
theorem maximalRuns_boundaries : ∀ (n : Nat) (l : List TimeSlot), l.length ≤ n →
    List.Chain' (fun r1 r2 : List TimeSlot => ∀ a b : TimeSlot,
      r1.getLast? = some a → r2.head? = some b → a.endTime ≠ b.startTime)
      (maximalRuns l) := by
  intro n
  induction n with
  | zero =>
    intro l h
    have : l = [] := List.length_eq_zero.mp (by omega)
    subst this
    simp [maximalRuns]
  | succ n ih =>
    intro l h
    cases l with
    | nil => simp [maximalRuns]
    | cons s rest =>
      obtain ⟨pre, heq, hlast, hconcat, -⟩ := maximalRuns_cons rest s
      have hrem : (groupRun s rest).2.length ≤ n := by
        have hlen := congrArg List.length hconcat
        simp only [List.length_cons, List.length_append] at hlen
        simp only [List.length_cons] at h
        omega
      rw [heq]
      refine List.chain'_cons'.mpr ⟨?_, ih (groupRun s rest).2 hrem⟩
      intro r2 hr2 a b ha hb
      rcases hremc : (groupRun s rest).2 with _ | ⟨u, rem'⟩
      · rw [hremc] at hr2
        simp [maximalRuns] at hr2
      · rw [hremc] at hr2
        obtain ⟨pre2, heq2, -, -, -⟩ := maximalRuns_cons rem' u
        rw [heq2] at hr2
        simp only [List.head?_cons, Option.mem_some_iff] at hr2
        subst hr2
        simp only [List.head?_cons, Option.some.injEq] at hb
        subst hb
        have ha' : a = (groupRun s rest).1 := by
          rw [List.getLast?_cons] at ha
          have : pre.getLast?.getD s = a := by
            exact Option.some.inj ha
          rw [← this, ← List.getLastD_eq_getLast?, hlast]
        subst ha'
        exact fun hcontra => groupRun_stop rest s u rem' hremc hcontra.symm

/-- C3: on a list of 30-minute base slots sorted ascending by start, the
grouped merge partitions the list into its maximal runs of back-to-back
slots (runs reassemble the input, each is nonempty and internally
back-to-back, and consecutive runs do not touch) and emits exactly one
merged slot per run, spanning the run's first start to its last end; a
run of length 1 yields a merged slot with the same start and end as its
single base slot. -/
theorem c3_grouped_merge (dateKey : String) (baseSlots : List TimeSlot)
    (hsorted : List.Pairwise (fun a b : TimeSlot => a.startTime ≤ b.startTime) baseSlots)
    (h30 : ∀ s ∈ baseSlots, s.endTime = s.startTime + 30) :
    generateGroupedSlots dateKey baseSlots = (maximalRuns baseSlots).map (mergeRun dateKey)
    ∧ (maximalRuns baseSlots).flatten = baseSlots
    ∧ (∀ r ∈ maximalRuns baseSlots,
        r ≠ [] ∧ List.Chain' (fun a b : TimeSlot => a.endTime = b.startTime) r)
    ∧ List.Chain' (fun r1 r2 : List TimeSlot => ∀ a b : TimeSlot,
        r1.getLast? = some a → r2.head? = some b → a.endTime ≠ b.startTime)
        (maximalRuns baseSlots)
    ∧ (∀ r ∈ maximalRuns baseSlots,
        (mergeRun dateKey r).startTime = r.headI.startTime
          ∧ (mergeRun dateKey r).endTime = (r.getLastD r.headI).endTime)
    ∧ (∀ s : TimeSlot, (mergeRun dateKey [s]).start = s.start
        ∧ (mergeRun dateKey [s]).stop = s.stop
        ∧ (mergeRun dateKey [s]).startTime = s.startTime
        ∧ (mergeRun dateKey [s]).endTime = s.endTime) :=
  ⟨generateGroupedSlotsGo_eq dateKey baseSlots.length baseSlots (Nat.le_refl _),
   maximalRuns_flatten baseSlots.length baseSlots (Nat.le_refl _),
   maximalRuns_runs baseSlots.length baseSlots (Nat.le_refl _),
   maximalRuns_boundaries baseSlots.length baseSlots (Nat.le_refl _),
   fun _ _ => ⟨rfl, rfl⟩,
   fun _ => ⟨rfl, rfl, rfl, rfl⟩⟩

/-- Witness for C3: two adjacent 30-minute slots followed by a separated
one merge into one hour-long slot and one isolated slot. -/
theorem c3_grouped_merge_witness :
    generateGroupedSlots "2025-01-06"
        [TimeSlot.mk "9:00 AM" "9:30 AM" 540 570 true "",
         TimeSlot.mk "9:30 AM" "10:00 AM" 570 600 true "",
         TimeSlot.mk "11:00 AM" "11:30 AM" 660 690 true ""]
      = (maximalRuns
          [TimeSlot.mk "9:00 AM" "9:30 AM" 540 570 true "",
           TimeSlot.mk "9:30 AM" "10:00 AM" 570 600 true "",
           TimeSlot.mk "11:00 AM" "11:30 AM" 660 690 true ""]).map
          (mergeRun "2025-01-06") :=
  (c3_grouped_merge "2025-01-06"
    [TimeSlot.mk "9:00 AM" "9:30 AM" 540 570 true "",
     TimeSlot.mk "9:30 AM" "10:00 AM" 570 600 true "",
     TimeSlot.mk "11:00 AM" "11:30 AM" 660 690 true ""]
    (by decide) (by decide)).1

end CalSnap
